import Mathlib

/-!
Verification of the collection-helper library (`collectiones.rs`) and the
HTTP stub (`caelum.rs`) of the faber-romanus runtime-support module.

Modelling choices (shallow embedding of the Rust code):
* `HashMap<K, V>` is modelled as an association list `AssocMap K V` whose
  entry order stands for the (unspecified) iteration order; the hash-map
  invariant "each key occurs at most once" is the predicate `NodupKeys`.
  `findA` is lookup, `insertA` is insert-or-overwrite (`HashMap::insert`,
  the semantics of `extend`/`collect` on each entry).
* `HashSet<T>` is modelled as `Finset T` (unordered, unique elements).
* `Vec<T>` / slices are modelled as `List T`.
* The `-> !` functions of `caelum.rs` (each body is `unimplemented!(msg)`)
  are modelled as functions into `Except String Empty`: a panic is the
  `Except.error` carrying the panic message, and a normal return is
  impossible since `Empty` is uninhabited.
-/

/-- Association-list model of `HashMap<K, V>`: the list order models the
host map's unspecified iteration order. -/
abbrev AssocMap (K V : Type) : Type := List (K × V)

/-- Lookup of a key, model of `HashMap::get`. -/
def findA {K V : Type} [DecidableEq K] : AssocMap K V → K → Option V
  | [], _ => none
  | (k₀, v₀) :: t, k => if k = k₀ then some v₀ else findA t k

/-- Key-membership test, model of `HashMap::contains_key`. -/
def containsA {K V : Type} [DecidableEq K] (m : AssocMap K V) (k : K) : Bool :=
  (findA m k).isSome

/-- Insert-or-overwrite, model of `HashMap::insert`: replaces the value at an
existing key in place, otherwise adds the entry at the end. -/
def insertA {K V : Type} [DecidableEq K] : AssocMap K V → K → V → AssocMap K V
  | [], k, v => [(k, v)]
  | (k₀, v₀) :: t, k, v => if k = k₀ then (k, v) :: t else (k₀, v₀) :: insertA t k v

/-- The hash-map representation invariant: every key occurs at most once. -/
abbrev NodupKeys {K V : Type} (m : AssocMap K V) : Prop :=
  (m.map Prod.fst).Nodup

/-- Model of `tabula_conflata` (collectiones.rs:14-22): clone `a`, then
`extend` it with the entries of `b`, each inserted with overwrite. -/
def tabula_conflata {K V : Type} [DecidableEq K] (a b : AssocMap K V) : AssocMap K V :=
  b.foldl (fun r kv => insertA r kv.1 kv.2) a

/-- Model of `tabula_inversa` (collectiones.rs:25-31): collect the swapped
entries `(v, k)` into a fresh map; on equal values the later entry of the
iteration wins, as in `HashMap::from_iter`. -/
def tabula_inversa {K V : Type} [DecidableEq V] (m : AssocMap K V) : AssocMap V K :=
  m.foldl (fun r kv => insertA r kv.2 kv.1) []

/-- Model of `tabula_selecta` (collectiones.rs:34-44): keep exactly the
entries whose key is in `keys` (the Rust code tests membership in the
`HashSet` built from `keys`, which holds exactly the elements of `keys`). -/
def tabula_selecta {K V : Type} [DecidableEq K] (m : AssocMap K V) (keys : List K) :
    AssocMap K V :=
  m.filter (fun kv => decide (kv.1 ∈ keys))

/-- Model of `tabula_omissa` (collectiones.rs:47-57): drop exactly the
entries whose key is in `keys`. -/
def tabula_omissa {K V : Type} [DecidableEq K] (m : AssocMap K V) (keys : List K) :
    AssocMap K V :=
  m.filter (fun kv => !decide (kv.1 ∈ keys))

/-- Model of `copia_unio` (collectiones.rs:73-78). -/
def copia_unio {T : Type} [DecidableEq T] (a b : Finset T) : Finset T := a ∪ b

/-- Model of `copia_intersectio` (collectiones.rs:81-86). -/
def copia_intersectio {T : Type} [DecidableEq T] (a b : Finset T) : Finset T := a ∩ b

/-- Model of `copia_differentia` (collectiones.rs:89-94): the elements of `a`
that are not in `b` (`HashSet::difference`). -/
def copia_differentia {T : Type} [DecidableEq T] (a b : Finset T) : Finset T := a \ b

/-- Model of `copia_symmetrica` (collectiones.rs:97-102): the elements in `a`
or `b` but not in both (`HashSet::symmetric_difference`). -/
def copia_symmetrica {T : Type} [DecidableEq T] (a b : Finset T) : Finset T :=
  (a ∪ b) \ (a ∩ b)

/-- Model of `lista_ordinata` (collectiones.rs:137-144): `slice::sort` is a
stable ascending sort under the element type's total order; `le` models the
boolean comparison derived from the `Ord` bound. -/
def lista_ordinata {T : Type} (le : T → T → Bool) (l : List T) : List T :=
  l.mergeSort le

/-- Loop of `lista_unica`: `seen` models the contents of the `HashSet`;
an element is kept exactly when `seen.insert` reports it as new. -/
def unicaAux {T : Type} [DecidableEq T] (seen : List T) : List T → List T
  | [] => []
  | x :: t => if x ∈ seen then unicaAux seen t else x :: unicaAux (x :: seen) t

/-- Model of `lista_unica` (collectiones.rs:147-156): filter the list,
keeping an element iff it was not seen before. -/
def lista_unica {T : Type} [DecidableEq T] (l : List T) : List T :=
  unicaAux [] l

/-- Model of `lista_ultima` (collectiones.rs:159-165): slice from
`len.saturating_sub(n)` to the end; `Nat` subtraction is saturating. -/
def lista_ultima {T : Type} (l : List T) (n : Nat) : List T :=
  l.drop (l.length - n)

/-- Model of `lista_congrega` (collectiones.rs:168-179): fold over the list,
pushing each element onto the bucket `entry(key_fn(item)).or_default()`. -/
def lista_congrega {T K : Type} [DecidableEq K] (l : List T) (keyFn : T → K) :
    AssocMap K (List T) :=
  l.foldl (fun r x => insertA r (keyFn x) ((findA r (keyFn x)).getD [] ++ [x])) []

/-- Model of `lista_partire` (collectiones.rs:182-198): one pass pushing each
element onto the truthy or the falsy accumulator. -/
def lista_partire {T : Type} (l : List T) (pred : T → Bool) : List T × List T :=
  l.foldl (fun acc x => if pred x then (acc.1 ++ [x], acc.2) else (acc.1, acc.2 ++ [x]))
    ([], [])

/-- Model of `caelum::pete` (caelum.rs:5-7): `unimplemented!` panics for
every input; the `!` return type makes a normal return impossible. -/
def pete (url : String) : Except String Empty :=
  Except.error "caelum::pete not yet implemented for Rust target"

/-- Model of `caelum::mitte` (caelum.rs:9-11). -/
def mitte (url corpus : String) : Except String Empty :=
  Except.error "caelum::mitte not yet implemented for Rust target"

/-- Model of `caelum::pone` (caelum.rs:13-15). -/
def pone (url corpus : String) : Except String Empty :=
  Except.error "caelum::pone not yet implemented for Rust target"

/-- Model of `caelum::dele` (caelum.rs:17-19). -/
def dele (url : String) : Except String Empty :=
  Except.error "caelum::dele not yet implemented for Rust target"

/-- Model of `caelum::muta` (caelum.rs:21-23). -/
def muta (url corpus : String) : Except String Empty :=
  Except.error "caelum::muta not yet implemented for Rust target"

/-- Model of `caelum::roga` (caelum.rs:25-32). -/
def roga (modus url : String) (capita : AssocMap String String) (corpus : String) :
    Except String Empty :=
  Except.error "caelum::roga not yet implemented for Rust target"

/-- Model of `caelum::exspecta` (caelum.rs:34-39). -/
def exspecta (handler : Unit → Unit) (portus : Int) : Except String Empty :=
  Except.error "caelum::exspecta not yet implemented for Rust target"

/-- Model of `caelum::replicatio` (caelum.rs:41-47). -/
def replicatio (status : Int) (capita : AssocMap String String) (corpus : String) :
    Except String Empty :=
  Except.error "caelum::replicatio not yet implemented for Rust target"

/-! ### Association-map lemmas -/

theorem findA_insertA {K V : Type} [DecidableEq K] (m : AssocMap K V) (k k' : K) (v : V) :
    findA (insertA m k v) k' = if k' = k then some v else findA m k' := by
  induction m with
  | nil => simp [insertA, findA]
  | cons kv t ih =>
    obtain ⟨k₀, v₀⟩ := kv
    by_cases hk : k = k₀
    · subst hk
      simp only [insertA, if_pos rfl, findA]
      by_cases h : k' = k <;> simp [h]
    · simp only [insertA, if_neg hk, findA, ih]
      by_cases h1 : k' = k₀ <;> by_cases h2 : k' = k <;> simp_all

theorem findA_eq_none_of_not_mem {K V : Type} [DecidableEq K] {m : AssocMap K V} {k : K}
    (h : k ∉ m.map Prod.fst) : findA m k = none := by
  induction m with
  | nil => rfl
  | cons kv t ih =>
    obtain ⟨k₀, v₀⟩ := kv
    simp only [List.map_cons, List.mem_cons, not_or] at h
    simp only [findA, if_neg h.1, ih h.2]

theorem containsA_of_mem {K V : Type} [DecidableEq K] {m : AssocMap K V} {p : K × V}
    (h : p ∈ m) : containsA m p.1 = true := by
  induction m with
  | nil => simp at h
  | cons kv t ih =>
    obtain ⟨k₀, v₀⟩ := kv
    rcases List.mem_cons.mp h with h | h
    · subst h
      simp [containsA, findA]
    · by_cases hk : p.1 = k₀ <;> simp [containsA, findA, hk] <;>
        simpa [containsA] using ih h

theorem findA_conflata {K V : Type} [DecidableEq K] (a b : AssocMap K V)
    (hb : NodupKeys b) (k : K) :
    findA (tabula_conflata a b) k = (findA b k).or (findA a k) := by
  induction b generalizing a with
  | nil => simp [tabula_conflata, findA, Option.or]
  | cons kv t ih =>
    obtain ⟨k₀, v₀⟩ := kv
    have hnd : NodupKeys t := by
      simpa [NodupKeys] using (List.nodup_cons.mp hb).2
    have hk₀ : k₀ ∉ t.map Prod.fst := by
      simpa [NodupKeys] using (List.nodup_cons.mp hb).1
    have hstep : tabula_conflata a ((k₀, v₀) :: t) = tabula_conflata (insertA a k₀ v₀) t := rfl
    rw [hstep, ih _ hnd, findA_insertA]
    by_cases h : k = k₀
    · subst h
      have hnone : findA t k = none := findA_eq_none_of_not_mem hk₀
      simp [findA, hnone, Option.or]
    · simp [findA, h]

/-- C1: `tabula_conflata a b` contains every key of `a` and every key of `b`;
for a key of `b` (present in both or only in `b`) the value is `b`'s, and for
a key only in `a` the value is `a`'s. `b` satisfies the hash-map key
invariant. -/
theorem tabula_conflata_spec {K V : Type} [DecidableEq K] (a b : AssocMap K V)
    (hb : NodupKeys b) :
    (∀ k, containsA a k = true → containsA (tabula_conflata a b) k = true) ∧
    (∀ k, containsA b k = true → containsA (tabula_conflata a b) k = true) ∧
    (∀ k v, findA b k = some v → findA (tabula_conflata a b) k = some v) ∧
    (∀ k v, findA b k = none → findA a k = some v →
      findA (tabula_conflata a b) k = some v) := by
  refine ⟨?_, ?_, ?_, ?_⟩
  · intro k hk
    simp only [containsA, findA_conflata a b hb k]
    simp only [containsA] at hk
    cases hfb : findA b k <;> simp [Option.or, hfb] <;> simpa using hk
  · intro k hk
    simp only [containsA, findA_conflata a b hb k]
    simp only [containsA] at hk
    cases hfb : findA b k <;> simp [Option.or, hfb] <;> simp [hfb] at hk
  · intro k v hv
    rw [findA_conflata a b hb k, hv]
    rfl
  · intro k v hb0 ha
    rw [findA_conflata a b hb k, hb0, ha]
    rfl

/-- C1 witness: concrete evaluation of the merge on
`a = \x7b1 ↦ 10, 2 ↦ 20\x7d`, `b = \x7b2 ↦ 30, 3 ↦ 40\x7d`: the collision key 2
takes `b`'s value 30. -/
theorem tabula_conflata_spec_witness :
    findA (tabula_conflata [(1, 10), (2, 20)] [(2, 30), (3, 40)]) 2 = some 30 :=
  (tabula_conflata_spec [(1, 10), (2, 20)] [(2, 30), (3, 40)] (by decide)).2.2.1 2 30
    (by decide)

/-! ### C2: select / omit partition the map -/

/-- C2: `tabula_selecta` keeps exactly the entries with key in `ks`,
`tabula_omissa` exactly those with key not in `ks`; every entry of `m` lands
in exactly one of the two results, and keys of `ks` absent from `m` change
neither result. -/
theorem tabula_selecta_omissa_spec {K V : Type} [DecidableEq K] (m : AssocMap K V)
    (ks : List K) :
    (∀ p : K × V, p ∈ tabula_selecta m ks ↔ p ∈ m ∧ p.1 ∈ ks) ∧
    (∀ p : K × V, p ∈ tabula_omissa m ks ↔ p ∈ m ∧ p.1 ∉ ks) ∧
    (∀ p : K × V, p ∈ m ↔ (p ∈ tabula_selecta m ks ∨ p ∈ tabula_omissa m ks)) ∧
    (∀ p : K × V, ¬(p ∈ tabula_selecta m ks ∧ p ∈ tabula_omissa m ks)) ∧
    tabula_selecta m ks = tabula_selecta m (ks.filter (fun k => containsA m k)) ∧
    tabula_omissa m ks = tabula_omissa m (ks.filter (fun k => containsA m k)) := by
  have hsel : ∀ p : K × V, p ∈ tabula_selecta m ks ↔ p ∈ m ∧ p.1 ∈ ks := by
    intro p
    simp [tabula_selecta, List.mem_filter]
  have hom : ∀ p : K × V, p ∈ tabula_omissa m ks ↔ p ∈ m ∧ p.1 ∉ ks := by
    intro p
    simp [tabula_omissa, List.mem_filter]
  have hagree : ∀ p : K × V, p ∈ m →
      (decide (p.1 ∈ ks) = decide (p.1 ∈ ks.filter (fun k => containsA m k))) := by
    intro p hp
    simp [List.mem_filter, containsA_of_mem hp]
  refine ⟨hsel, hom, ?_, ?_, ?_, ?_⟩
  · intro p
    by_cases hk : p.1 ∈ ks
    · simp [hsel, hom, hk]
    · simp [hsel, hom, hk]
  · intro p ⟨h1, h2⟩
    exact ((hom p).mp h2).2 ((hsel p).mp h1).2
  · exact List.filter_congr hagree
  · refine List.filter_congr ?_
    intro p hp
    simp only [hagree p hp]

/-- C2 witness: on `m = \x7b1 ↦ 10, 2 ↦ 20\x7d`, `ks = [1, 3]`, the entry
`(1, 10)` is selected. -/
theorem tabula_selecta_omissa_spec_witness :
    ((1, 10) : Nat × Nat) ∈ tabula_selecta [(1, 10), (2, 20)] [1, 3] :=
  ((tabula_selecta_omissa_spec [(1, 10), (2, 20)] [1, 3]).1 (1, 10)).mpr (by decide)

/-! ### C4: the two set differences partition the symmetric difference -/

/-- C4: `copia_differentia a b` and `copia_differentia b a` are disjoint,
their union is `copia_symmetrica a b`, and the symmetric difference holds
exactly the elements in exactly one of `a`, `b`. -/
theorem copia_differentia_symmetrica_spec {T : Type} [DecidableEq T] (a b : Finset T) :
    Disjoint (copia_differentia a b) (copia_differentia b a) ∧
    copia_differentia a b ∪ copia_differentia b a = copia_symmetrica a b ∧
    (∀ x, x ∈ copia_symmetrica a b ↔ ((x ∈ a ∧ x ∉ b) ∨ (x ∈ b ∧ x ∉ a))) := by
  refine ⟨?_, ?_, ?_⟩
  · rw [Finset.disjoint_left]
    intro x hx hx2
    simp only [copia_differentia, Finset.mem_sdiff] at hx hx2
    exact hx.2 hx2.1
  · ext x
    simp only [copia_differentia, copia_symmetrica, Finset.mem_union, Finset.mem_sdiff,
      Finset.mem_inter]
    tauto
  · intro x
    simp only [copia_symmetrica, Finset.mem_sdiff, Finset.mem_union, Finset.mem_inter]
    tauto

/-- C4 witness: with `a = \x7b1, 2\x7d`, `b = \x7b2, 3\x7d`, the two differences are
disjoint. -/
theorem copia_differentia_symmetrica_spec_witness :
    Disjoint (copia_differentia ({1, 2} : Finset Nat) {2, 3})
      (copia_differentia ({2, 3} : Finset Nat) {1, 2}) :=
  (copia_differentia_symmetrica_spec {1, 2} {2, 3}).1

/-! ### C9: every caelum operation fails unconditionally -/

/-- C9: each function of the HTTP helper module panics for every input with
its `unimplemented!` message and never produces a normal value (the success
type `Empty` is uninhabited). -/
theorem caelum_omnia_deficiunt :
    (∀ url, pete url =
      Except.error "caelum::pete not yet implemented for Rust target") ∧
    (∀ url corpus, mitte url corpus =
      Except.error "caelum::mitte not yet implemented for Rust target") ∧
    (∀ url corpus, pone url corpus =
      Except.error "caelum::pone not yet implemented for Rust target") ∧
    (∀ url, dele url =
      Except.error "caelum::dele not yet implemented for Rust target") ∧
    (∀ url corpus, muta url corpus =
      Except.error "caelum::muta not yet implemented for Rust target") ∧
    (∀ modus url capita corpus, roga modus url capita corpus =
      Except.error "caelum::roga not yet implemented for Rust target") ∧
    (∀ handler portus, exspecta handler portus =
      Except.error "caelum::exspecta not yet implemented for Rust target") ∧
    (∀ status capita corpus, replicatio status capita corpus =
      Except.error "caelum::replicatio not yet implemented for Rust target") :=
  ⟨fun _ => rfl, fun _ _ => rfl, fun _ _ => rfl, fun _ => rfl, fun _ _ => rfl,
    fun _ _ _ _ => rfl, fun _ _ => rfl, fun _ _ _ => rfl⟩

/-! ### C7: lastN takes the final n elements -/

/-- C7: `lista_ultima l n` is the final `n` elements of `l` in order: for
`n ≥ length` it is all of `l`, for `n = 0` it is empty, its length is
`min n (length l)`, and it is the suffix left after taking the first
`length - n` elements. -/
theorem lista_ultima_spec {T : Type} (l : List T) (n : Nat) :
    (l.length ≤ n → lista_ultima l n = l) ∧
    lista_ultima l 0 = [] ∧
    (lista_ultima l n).length = min n l.length ∧
    l.take (l.length - n) ++ lista_ultima l n = l := by
  refine ⟨?_, ?_, ?_, ?_⟩
  · intro h
    simp [lista_ultima, Nat.sub_eq_zero_of_le h]
  · simp [lista_ultima]
  · simp only [lista_ultima, List.length_drop]
    omega
  · exact List.take_append_drop _ l

/-- C7 witness: `lastN([1,2,3], 5) = [1,2,3]`, the saturating case. -/
theorem lista_ultima_spec_witness :
    lista_ultima [1, 2, 3] 5 = [1, 2, 3] :=
  (lista_ultima_spec [1, 2, 3] 5).1 (by decide)

/-! ### C8: partition splits by the predicate, order-preserving -/

theorem partireAux_eq {T : Type} (l : List T) (p : T → Bool) (acc : List T × List T) :
    l.foldl (fun acc x => if p x then (acc.1 ++ [x], acc.2) else (acc.1, acc.2 ++ [x]))
        acc =
      (acc.1 ++ l.filter p, acc.2 ++ l.filter (fun x => !p x)) := by
  induction l generalizing acc with
  | nil => simp
  | cons x t ih =>
    by_cases hx : p x <;>
      simp [List.foldl_cons, hx, ih, List.filter_cons, List.append_assoc]

theorem lista_partire_eq_filter {T : Type} (l : List T) (p : T → Bool) :
    lista_partire l p = (l.filter p, l.filter (fun x => !p x)) := by
  simpa [lista_partire] using partireAux_eq l p ([], [])

/-- C8: for `lista_partire l p`, the concatenation of the two parts is a
permutation of `l`, each part is a sublist of `l` (order within each part is
preserved), every element of the first part satisfies `p` and every element
of the second part fails `p`. -/
theorem lista_partire_spec {T : Type} (l : List T) (p : T → Bool) :
    ((lista_partire l p).1 ++ (lista_partire l p).2).Perm l ∧
    (lista_partire l p).1.Sublist l ∧
    (lista_partire l p).2.Sublist l ∧
    (∀ x, x ∈ (lista_partire l p).1 → p x = true) ∧
    (∀ x, x ∈ (lista_partire l p).2 → p x = false) := by
  rw [lista_partire_eq_filter]
  refine ⟨List.filter_append_perm p l, List.filter_sublist l, List.filter_sublist l,
    ?_, ?_⟩
  · intro x hx
    exact (List.mem_filter.mp hx).2
  · intro x hx
    have h := (List.mem_filter.mp hx).2
    simpa using h

/-- C8 witness: on `[1,2,3,4,5]` with the is-even predicate, 2 lands in the
first part and satisfies the predicate. -/
theorem lista_partire_spec_witness :
    2 ∈ (lista_partire [1, 2, 3, 4, 5] (fun x => decide (x % 2 = 0))).1 ∧
      (fun x => decide (x % 2 = 0)) 2 = true :=
  ⟨by decide,
    (lista_partire_spec [1, 2, 3, 4, 5] (fun x => decide (x % 2 = 0))).2.2.2.1 2
      (by decide)⟩

/-! ### C5: sorted is a stable ascending permutation -/

/-- C5: for any transitive and total boolean comparison (the `Ord` bound),
`lista_ordinata le l` is a permutation of `l` (same multiset, duplicates
kept), is non-decreasing under `le`, and is stable: any sublist of `l` whose
elements pairwise compare equal is still a sublist of the output, so equal
elements retain their relative input order. -/
theorem lista_ordinata_spec {T : Type} (le : T → T → Bool)
    (htrans : ∀ a b c, le a b = true → le b c = true → le a c = true)
    (htotal : ∀ a b, (le a b || le b a) = true) (l : List T) :
    (lista_ordinata le l).Perm l ∧
    (lista_ordinata le l).Pairwise (fun a b => le a b = true) ∧
    (∀ c : List T, c.Sublist l →
      c.Pairwise (fun a b => le a b = true ∧ le b a = true) →
      c.Sublist (lista_ordinata le l)) := by
  refine ⟨List.mergeSort_perm l le, List.sorted_mergeSort htrans htotal l, ?_⟩
  intro c hsub hpair
  exact List.sublist_mergeSort htrans htotal (hpair.imp (fun h => h.1)) hsub

/-- C5 witness: sorting `[3, 1, 2, 1]` of naturals is a permutation of the
input (the comparison `Nat.≤` is transitive and total). -/
theorem lista_ordinata_spec_witness :
    (lista_ordinata (fun a b : Nat => decide (a ≤ b)) [3, 1, 2, 1]).Perm [3, 1, 2, 1] :=
  (lista_ordinata_spec (fun a b : Nat => decide (a ≤ b))
    (fun a b c hab hbc => by
      simp only [decide_eq_true_eq] at hab hbc ⊢
      omega)
    (fun a b => by
      rcases Nat.le_total a b with h | h <;> simp [h])
    [3, 1, 2, 1]).1

/-! ### C6: unique keeps the first occurrence of each element, in order -/

theorem mem_unicaAux {T : Type} [DecidableEq T] (seen l : List T) (x : T) :
    x ∈ unicaAux seen l ↔ x ∈ l ∧ x ∉ seen := by
  induction l generalizing seen with
  | nil => simp [unicaAux]
  | cons y t ih =>
    by_cases hy : y ∈ seen
    · simp only [unicaAux, if_pos hy, ih, List.mem_cons]
      by_cases hxy : x = y
      · subst hxy
        tauto
      · tauto
    · simp only [unicaAux, if_neg hy, List.mem_cons, ih]
      by_cases hxy : x = y
      · subst hxy
        tauto
      · tauto

theorem nodup_unicaAux {T : Type} [DecidableEq T] (seen l : List T) :
    (unicaAux seen l).Nodup := by
  induction l generalizing seen with
  | nil => simp [unicaAux]
  | cons y t ih =>
    by_cases hy : y ∈ seen
    · simpa [unicaAux, hy] using ih seen
    · simp only [unicaAux, if_neg hy]
      refine List.nodup_cons.mpr ⟨?_, ih (y :: seen)⟩
      intro hmem
      exact ((mem_unicaAux _ _ _).mp hmem).2 (List.mem_cons_self y seen)

theorem unicaAux_sublist {T : Type} [DecidableEq T] (seen l : List T) :
    (unicaAux seen l).Sublist l := by
  induction l generalizing seen with
  | nil => simp [unicaAux]
  | cons y t ih =>
    by_cases hy : y ∈ seen
    · simp only [unicaAux, if_pos hy]
      exact (ih seen).cons y
    · simp only [unicaAux, if_neg hy]
      exact (ih (y :: seen)).cons₂ y

theorem pairwise_indexOf_unicaAux {T : Type} [DecidableEq T] (seen l : List T) :
    (unicaAux seen l).Pairwise (fun a b => List.indexOf a l < List.indexOf b l) := by
  induction l generalizing seen with
  | nil => simp [unicaAux]
  | cons y t ih =>
    by_cases hy : y ∈ seen
    · simp only [unicaAux, if_pos hy]
      refine (ih seen).imp_of_mem ?_
      intro a b ha hb hab
      have hat := (mem_unicaAux seen t a).mp ha
      have hbt := (mem_unicaAux seen t b).mp hb
      have hay : y ≠ a := fun h => hat.2 (h ▸ hy)
      have hby : y ≠ b := fun h => hbt.2 (h ▸ hy)
      rw [List.indexOf_cons_ne t hay, List.indexOf_cons_ne t hby]
      omega
    · simp only [unicaAux, if_neg hy]
      refine List.pairwise_cons.mpr ⟨?_, ?_⟩
      · intro b hb
        have hbt := (mem_unicaAux (y :: seen) t b).mp hb
        have hby : y ≠ b := fun h => hbt.2 (h ▸ List.mem_cons_self y seen)
        rw [List.indexOf_cons_self, List.indexOf_cons_ne t hby]
        exact Nat.succ_pos _
      · refine (ih (y :: seen)).imp_of_mem ?_
        intro a b ha hb hab
        have hat := (mem_unicaAux (y :: seen) t a).mp ha
        have hbt := (mem_unicaAux (y :: seen) t b).mp hb
        have hay : y ≠ a := fun h => hat.2 (h ▸ List.mem_cons_self y seen)
        have hby : y ≠ b := fun h => hbt.2 (h ▸ List.mem_cons_self y seen)
        rw [List.indexOf_cons_ne t hay, List.indexOf_cons_ne t hby]
        omega

/-- C6: `lista_unica l` has no duplicates, has exactly the elements of `l`,
is a sublist of `l` (so the surviving occurrences keep their relative
order), and its elements are ordered by the position of their first
occurrence in `l` — i.e. it keeps the first occurrence of each distinct
element in first-occurrence order. -/
theorem lista_unica_spec {T : Type} [DecidableEq T] (l : List T) :
    (lista_unica l).Nodup ∧
    (∀ x, x ∈ lista_unica l ↔ x ∈ l) ∧
    (lista_unica l).Sublist l ∧
    (lista_unica l).Pairwise (fun a b => List.indexOf a l < List.indexOf b l) := by
  refine ⟨nodup_unicaAux [] l, ?_, unicaAux_sublist [] l, pairwise_indexOf_unicaAux [] l⟩
  intro x
  simp [lista_unica, mem_unicaAux]

/-- C6 witness: `unique([1, 2, 1, 3, 2]) = [1, 2, 3]` has no duplicates. -/
theorem lista_unica_spec_witness :
    (lista_unica [1, 2, 1, 3, 2]).Nodup :=
  (lista_unica_spec [1, 2, 1, 3, 2]).1

/-! ### C3: invert is an involution on maps with injective values -/

theorem findA_append {K V : Type} [DecidableEq K] (a b : AssocMap K V) (k : K) :
    findA (a ++ b) k = (findA a k).or (findA b k) := by
  induction a with
  | nil => simp [findA, Option.or]
  | cons kv t ih =>
    obtain ⟨k₀, v₀⟩ := kv
    by_cases h : k = k₀ <;> simp [findA, h, ih, Option.or]

theorem insertA_of_not_mem {K V : Type} [DecidableEq K] {m : AssocMap K V} {k : K}
    (v : V) (h : findA m k = none) : insertA m k v = m ++ [(k, v)] := by
  induction m with
  | nil => rfl
  | cons kv t ih =>
    obtain ⟨k₀, v₀⟩ := kv
    simp only [findA] at h
    by_cases hk : k = k₀
    · simp [hk] at h
    · rw [if_neg hk] at h
      simp only [insertA, if_neg hk, List.cons_append]
      rw [ih h]

theorem foldl_insert_swap_eq {K V : Type} [DecidableEq V] (m : AssocMap K V)
    (acc : AssocMap V K) (hnd : (m.map Prod.snd).Nodup)
    (hfresh : ∀ p ∈ m, findA acc p.2 = none) :
    m.foldl (fun r kv => insertA r kv.2 kv.1) acc = acc ++ m.map Prod.swap := by
  induction m generalizing acc with
  | nil => simp
  | cons kv t ih =>
    obtain ⟨k₀, v₀⟩ := kv
    simp only [List.foldl_cons]
    have hv₀ : v₀ ∉ t.map Prod.snd := (List.nodup_cons.mp (by simpa using hnd)).1
    have hnd2 : (t.map Prod.snd).Nodup := (List.nodup_cons.mp (by simpa using hnd)).2
    have h1 : insertA acc v₀ k₀ = acc ++ [(v₀, k₀)] :=
      insertA_of_not_mem k₀ (hfresh (k₀, v₀) (List.mem_cons_self _ _))
    have hfresh2 : ∀ p ∈ t, findA (acc ++ [(v₀, k₀)]) p.2 = none := by
      intro p hp
      have hne : p.2 ≠ v₀ := fun h => hv₀ (h ▸ List.mem_map_of_mem Prod.snd hp)
      rw [findA_append, hfresh p (List.mem_cons_of_mem _ hp)]
      simp [findA, Option.or, hne]
    rw [h1, ih _ hnd2 hfresh2]
    simp

theorem tabula_inversa_eq_map_swap {K V : Type} [DecidableEq V] (m : AssocMap K V)
    (hnd : (m.map Prod.snd).Nodup) :
    tabula_inversa m = m.map Prod.swap := by
  simpa [tabula_inversa] using foldl_insert_swap_eq m [] hnd (fun p _ => rfl)

/-- C3: on a map satisfying the hash-map key invariant whose values are
injective (no two entries share a value), inverting twice gives back the
original map. -/
theorem tabula_inversa_involutio {K V : Type} [DecidableEq K] [DecidableEq V]
    (m : AssocMap K V) (hk : NodupKeys m)
    (hinj : ∀ p ∈ m, ∀ q ∈ m, p.2 = q.2 → p.1 = q.1) :
    tabula_inversa (tabula_inversa m) = m := by
  have hmnd : m.Nodup := List.Nodup.of_map Prod.fst hk
  have hsnd : (m.map Prod.snd).Nodup := by
    refine List.Nodup.map_on ?_ hmnd
    intro p hp q hq hpq
    exact Prod.ext (hinj p hp q hq hpq) hpq
  rw [tabula_inversa_eq_map_swap m hsnd]
  have hsnd2 : ((m.map Prod.swap).map Prod.snd).Nodup := by
    have heq : (m.map Prod.swap).map Prod.snd = m.map Prod.fst := by
      rw [List.map_map]
      exact List.map_congr_left (fun p _ => rfl)
    rw [heq]
    exact hk
  rw [tabula_inversa_eq_map_swap _ hsnd2, List.map_map, Prod.swap_swap_eq, List.map_id]

/-- C3 witness: the involution on the concrete injective map
`\x7b1 ↦ 10, 2 ↦ 20\x7d`. -/
theorem tabula_inversa_involutio_witness :
    tabula_inversa (tabula_inversa [(1, 10), (2, 20)]) = [(1, 10), (2, 20)] :=
  tabula_inversa_involutio [(1, 10), (2, 20)] (by decide) (by decide)

/-! ### C10: groupBy buckets are exactly the non-empty key fibers -/

theorem findA_congregaAux {T K : Type} [DecidableEq K] (f : T → K) (l : List T)
    (m : AssocMap K (List T)) (k : K) :
    findA (l.foldl (fun r x => insertA r (f x) ((findA r (f x)).getD [] ++ [x])) m) k =
      if (l.filter (fun x => decide (f x = k))).isEmpty then findA m k
      else some ((findA m k).getD [] ++ l.filter (fun x => decide (f x = k))) := by
  induction l generalizing m with
  | nil => simp
  | cons x t ih =>
    simp only [List.foldl_cons]
    rw [ih]
    by_cases hfx : f x = k
    · subst hfx
      have hm : findA (insertA m (f x) ((findA m (f x)).getD [] ++ [x])) (f x) =
          some ((findA m (f x)).getD [] ++ [x]) := by
        rw [findA_insertA]
        simp
      rw [hm, List.filter_cons, if_pos (by simp : decide (f x = f x) = true)]
      by_cases hemp : (List.filter (fun y => decide (f y = f x)) t).isEmpty = true
      · have hnil : List.filter (fun y => decide (f y = f x)) t = [] :=
          List.isEmpty_iff.mp hemp
        simp [hemp, hnil]
      · have hemp2 : (List.filter (fun y => decide (f y = f x)) t).isEmpty = false := by
          simpa using hemp
        simp [hemp2, List.append_assoc]
    · have hm : findA (insertA m (f x) ((findA m (f x)).getD [] ++ [x])) k =
          findA m k := by
        rw [findA_insertA, if_neg (fun h => hfx h.symm)]
      have hpx : decide (f x = k) = false := by simp [hfx]
      rw [hm, List.filter_cons, hpx]
      simp

/-- C10: the grouped map of `lista_congrega l keyFn` has a key `k` exactly
when some element of `l` maps to `k`; every bucket is non-empty; and every
element stored under `k` has key `k`. -/
theorem lista_congrega_spec {T K : Type} [DecidableEq K] (l : List T) (keyFn : T → K) :
    (∀ k, containsA (lista_congrega l keyFn) k = true ↔ ∃ x ∈ l, keyFn x = k) ∧
    (∀ k b, findA (lista_congrega l keyFn) k = some b → b ≠ []) ∧
    (∀ k b, findA (lista_congrega l keyFn) k = some b → ∀ x ∈ b, keyFn x = k) := by
  have hmain : ∀ k, findA (lista_congrega l keyFn) k =
      if (l.filter (fun x => decide (keyFn x = k))).isEmpty then none
      else some (l.filter (fun x => decide (keyFn x = k))) := by
    intro k
    have h := findA_congregaAux keyFn l [] k
    simpa [lista_congrega, findA] using h
  have hne : ∀ k, (List.filter (fun x => decide (keyFn x = k)) l).isEmpty = false →
      List.filter (fun x => decide (keyFn x = k)) l ≠ [] := by
    intro k hemp h
    rw [h] at hemp
    simp at hemp
  refine ⟨?_, ?_, ?_⟩
  · intro k
    rw [containsA, hmain k]
    by_cases hemp : (List.filter (fun x => decide (keyFn x = k)) l).isEmpty = true
    · rw [if_pos hemp]
      have hnil : List.filter (fun x => decide (keyFn x = k)) l = [] :=
        List.isEmpty_iff.mp hemp
      constructor
      · intro h
        exact absurd h (by simp)
      · rintro ⟨x, hx, hfx⟩
        have hmem : x ∈ List.filter (fun x => decide (keyFn x = k)) l :=
          List.mem_filter.mpr ⟨hx, by simp [hfx]⟩
        rw [hnil] at hmem
        simp at hmem
    · have hemp2 : (List.filter (fun x => decide (keyFn x = k)) l).isEmpty = false := by
        simpa using hemp
      rw [if_neg hemp]
      simp only [Option.isSome_some, true_iff]
      obtain ⟨x, hx⟩ := List.exists_mem_of_ne_nil _ (hne k hemp2)
      have hm := List.mem_filter.mp hx
      exact ⟨x, hm.1, by simpa using hm.2⟩
  · intro k b hb
    rw [hmain k] at hb
    by_cases hemp : (List.filter (fun x => decide (keyFn x = k)) l).isEmpty = true
    · rw [if_pos hemp] at hb
      exact absurd hb (by simp)
    · have hemp2 : (List.filter (fun x => decide (keyFn x = k)) l).isEmpty = false := by
        simpa using hemp
      rw [if_neg hemp] at hb
      injection hb with h
      rw [← h]
      exact hne k hemp2
  · intro k b hb x hx
    rw [hmain k] at hb
    by_cases hemp : (List.filter (fun x => decide (keyFn x = k)) l).isEmpty = true
    · rw [if_pos hemp] at hb
      exact absurd hb (by simp)
    · rw [if_neg hemp] at hb
      injection hb with h
      rw [← h] at hx
      simpa using (List.mem_filter.mp hx).2

/-- C10 witness: grouping `[1, 2, 3, 4]` by parity has a bucket for key 0. -/
theorem lista_congrega_spec_witness :
    containsA (lista_congrega [1, 2, 3, 4] (fun x => x % 2)) 0 = true :=
  ((lista_congrega_spec [1, 2, 3, 4] (fun x => x % 2)).1 0).mpr (by decide)
